import Mathlib

/-!
# Verification of the jungle-ai quiz relay

Shallow embedding of the pure logic of the repository:

* `utils.py` — `normalize_answer`, `build_options`, `get_explanation`,
  `normalize_card`, `build_question_types`;
* `app.py` — `validate_page_range`, `_parse_page_range`, and the
  server-sent-event generator `event_stream` inside `stream_cards`
  (modelled as a step function over an explicit session state driven by a
  finite trace of poll outcomes);
* `config.py` — the streaming constants.

Python dynamic values are modelled by `PyVal`; Python truthiness, `or`,
and `str()` are modelled explicitly.  The two sources of nondeterminism in
the code — `random.shuffle` in `build_options` and the arbitrary
enumeration order of `list(seen)` over a Python `set` — are modelled as
explicit function parameters (`shuf`, `enum`); a run of the real program
corresponds to instantiating them with some permutation-producing
functions.  Real time is abstracted: each loop iteration of the stream
carries the elapsed whole seconds observed at its top and a boolean
saying whether the heartbeat interval has passed.
-/

/-- Model of a dynamically-typed Python value as it appears in the card
records handled by `utils.py` (absent dict keys are `PyVal.none`, which is
what `dict.get` returns). -/
inductive PyVal where
  | none : PyVal
  | bool : Bool → PyVal
  | str : String → PyVal
  | int : Int → PyVal
deriving DecidableEq, Repr

/-- Python truthiness for the modelled values. -/
def pyTruthy : PyVal → Bool
  | .none => false
  | .bool b => b
  | .str s => s ≠ ""
  | .int n => n ≠ 0

/-- Python `a or b`. -/
def pyOr (a b : PyVal) : PyVal := if pyTruthy a then a else b

/-- Python `str(v)` for the modelled values. -/
def pyStr : PyVal → String
  | .none => "None"
  | .bool b => if b then "True" else "False"
  | .str s => s
  | .int n => toString n

/-- Strip leading and trailing whitespace from a character list. -/
def stripChars (cs : List Char) : List Char :=
  ((cs.dropWhile Char.isWhitespace).reverse.dropWhile Char.isWhitespace).reverse

/-- Python `s.strip()` (ASCII whitespace). -/
def pyStrip (s : String) : String := String.mk (stripChars s.toList)

/-- Lower-case an ASCII letter. -/
def asciiLowerChar (c : Char) : Char :=
  if 65 ≤ c.toNat && c.toNat ≤ 90 then Char.ofNat (c.toNat + 32) else c

/-- Python `s.lower()` (ASCII). -/
def pyLower (s : String) : String := String.mk (s.toList.map asciiLowerChar)

/-- `needle.isPrefixOf`-based infix test on character lists, modelling
Python's `needle in hay` on strings. -/
def charsContain (needle : List Char) : List Char → Bool
  | [] => needle.isEmpty
  | c :: cs => needle.isPrefixOf (c :: cs) || charsContain needle cs

/-- Python `needle in hay` for strings. -/
def strContains (hay needle : String) : Bool :=
  charsContain needle.toList hay.toList

/-- `utils.normalize_answer`: bools become `"True"`/`"False"`; strings
matching true/false after strip+lower are canonicalised; otherwise
`str(answer) if answer else ''`. -/
def normalize_answer (answer : PyVal) : String :=
  match answer with
  | .bool b => if b then "True" else "False"
  | .str s =>
      let sl := pyLower (pyStrip s)
      if sl = "true" then "True"
      else if sl = "false" then "False"
      else if pyTruthy (.str s) then s else ""
  | a => if pyTruthy a then pyStr a else ""

/-- `isinstance(answer, str) and answer.strip().lower() in ('true','false')`. -/
def isTrueFalseString (answer : PyVal) : Bool :=
  match answer with
  | .str s => pyLower (pyStrip s) = "true" || pyLower (pyStrip s) = "false"
  | _ => false

/-- `utils.build_options`.  `shuf` models `random.shuffle` (the code
shuffles in place; a real run corresponds to `shuf` being some
permutation).  The answer is appended only when truthy (`if answer:`). -/
def build_options (shuf : List String → List String) (answer : PyVal)
    (distractors : List String) (card_type : PyVal) : List String :=
  let options : List String :=
    if distractors = [] then []
    else shuf (distractors ++ if pyTruthy answer then [normalize_answer answer] else [])
  let card_type_lower := pyLower (pyStr (pyOr card_type (.str "")))
  if options = [] && (strContains card_type_lower "true" || strContains card_type_lower "false") then
    ["True", "False"]
  else if options = [] && isTrueFalseString answer then
    ["True", "False"]
  else options

/-- A raw card record from the backend: the dict keys that
`utils.normalize_card` reads.  An absent key is `PyVal.none`; the
distractor list (`distractor_answers_for_multiple_choice_question`,
`.get(...) or []`) is modelled directly as a list of strings. -/
structure RawCard where
  card_id : PyVal
  id : PyVal
  answer : PyVal
  card_type : PyVal
  distractors : List String
  question : PyVal
  case_scenario_details : PyVal
  explanation : PyVal
  explanation_text : PyVal
  detailed_answer : PyVal
  solution : PyVal
deriving DecidableEq, Repr

/-- `utils.get_explanation`: the `or`-fallback chain ending in the
normalized answer. -/
def get_explanation (cd : RawCard) (answer : PyVal) : PyVal :=
  pyOr cd.explanation (pyOr cd.explanation_text (pyOr cd.detailed_answer
    (pyOr cd.solution (.str (normalize_answer answer)))))

/-- The canonical card produced by `utils.normalize_card`.  `raw` is the
original record; the stream pops it before emission (`raw := none`). -/
structure Card where
  card_id : PyVal
  question : PyVal
  case_details : PyVal
  card_type : PyVal
  answer : String
  explanation : PyVal
  options : List String
  raw : Option RawCard
deriving DecidableEq, Repr

/-- The id `normalize_card` would select:
`card_data.get('card_id') or card_data.get('id')`, `none` when falsy. -/
def getCardId (cd : RawCard) : Option PyVal :=
  let cid := pyOr cd.card_id cd.id
  if pyTruthy cid then some cid else none

/-- `utils.normalize_card`: returns `none` when both id keys are falsy,
otherwise the canonical card. -/
def normalize_card (shuf : List String → List String) (cd : RawCard) : Option Card :=
  let cid := pyOr cd.card_id cd.id
  if pyTruthy cid then
    some {
      card_id := cid
      question := cd.question
      case_details := cd.case_scenario_details
      card_type := cd.card_type
      answer := normalize_answer cd.answer
      explanation := get_explanation cd cd.answer
      options := build_options shuf cd.answer cd.distractors cd.card_type
      raw := some cd }
  else none

/-- An entry of the question-types list built for the generation payload. -/
structure QType where
  cardType : String
  difficultyGroup : String
deriving DecidableEq, Repr

/-- `config.QUESTION_TYPE_MAPPING` as a lookup function (the dict maps
each of the four known labels to itself). -/
def QUESTION_TYPE_MAPPING (t : String) : Option String :=
  if t = "Multiple Choice Question" then some "Multiple Choice Question"
  else if t = "Understanding Question" then some "Understanding Question"
  else if t = "Case Scenario Multiple Choice Question" then some "Case Scenario Multiple Choice Question"
  else if t = "True/False Question" then some "True/False Question"
  else none

/-- `utils.build_question_types`: unknown labels are skipped;
`True/False Question` is forced to difficulty `Basic`. -/
def build_question_types (selected_types : List String) (difficulty : String) : List QType :=
  match selected_types with
  | [] => []
  | t :: rest =>
    match QUESTION_TYPE_MAPPING t with
    | Option.none => build_question_types rest difficulty
    | Option.some ct =>
        (if t = "True/False Question" then QType.mk ct "Basic" else QType.mk ct difficulty)
          :: build_question_types rest difficulty

/-- `app.validate_page_range`: the if-chain of bound checks, returning
`(is_valid, error_message)`. -/
def validate_page_range (start_page end_page : Option Int) (total_pages : Int) :
    Bool × Option String :=
  match start_page, end_page with
  | sp, ep =>
    if (match sp with | Option.some s => decide (s < 1) | Option.none => false) then
      (false, some "Start page must be at least 1")
    else if (match ep with | Option.some e => decide (e < 1) | Option.none => false) then
      (false, some "End page must be at least 1")
    else if (match sp, ep with
             | Option.some s, Option.some e => decide (s > e)
             | _, _ => false) then
      (false, some "Start page must be less than or equal to end page")
    else if (match sp with | Option.some s => decide (s > total_pages) | Option.none => false) then
      (false, some ("Start page (" ++ toString (sp.getD 0) ++ ") exceeds total pages ("
        ++ toString total_pages ++ ")"))
    else if (match ep with | Option.some e => decide (e > total_pages) | Option.none => false) then
      (false, some ("End page (" ++ toString (ep.getD 0) ++ ") exceeds total pages ("
        ++ toString total_pages ++ ")"))
    else (true, none)

/-- Value of an all-digit string, as Python `int()` computes it. -/
def digitsToNat (s : String) : Nat :=
  s.toList.foldl (fun a c => 10 * a + (c.toNat - 48)) 0

/-- One bound of `app._parse_page_range`: the form value is stripped, and
parsed only when non-empty and made of decimal digits
(`page_start.isdigit()`); anything else yields `none`. -/
def parsePageBound (s : String) : Option Int :=
  let t := pyStrip s
  if t ≠ "" && t.toList.all Char.isDigit then some (digitsToNat t) else none

/-- `app._parse_page_range` on the two raw form values. -/
def _parse_page_range (page_start page_end : String) : Option Int × Option Int :=
  (parsePageBound page_start, parsePageBound page_end)

/-! ## The card stream (`app.stream_cards` / `event_stream`)

The generator is modelled as a step function over a session state,
driven by a finite trace of loop iterations.  Each iteration records the
elapsed time observed at the top of the loop, the outcome of the poll
(`fetch_cards_from_api` returns `(False, [])` on timeouts and transport
errors, modelled by `Poll.fail`; an unexpected exception inside the
`try` block is `Poll.err`), and whether the heartbeat interval had
passed.  A finite trace models a session: the generator stops early when
a `done` event is emitted, and an exhausted trace models the client
disconnecting. -/

/-- `config.STREAM_MAX_IDLE`. -/
def STREAM_MAX_IDLE : Nat := 30

/-- `MAX_STREAM_DURATION` in `stream_cards` (seconds). -/
def MAX_STREAM_DURATION : Nat := 300

/-- Outcome of one poll of `fetch_cards_from_api` inside the stream. -/
inductive Poll where
  | fail : Poll
  | ok : List RawCard → Poll
  | err : String → Poll
deriving DecidableEq, Repr

/-- One iteration of the streaming loop: elapsed whole seconds at the
loop top, the poll outcome, and whether the 15 s heartbeat interval had
elapsed at the heartbeat checks of this iteration. -/
structure Iter where
  elapsed : Nat
  poll : Poll
  hb : Bool
deriving DecidableEq, Repr

/-- An event yielded by the generator.  `data` is a `data:` payload of
newly seen cards, `errEvent` the inline error payload, `heartbeat` and
`keepalive` the comment lines, `done` the terminal event with its
reason. -/
inductive Event where
  | data : List Card → Event
  | errEvent : String → Event
  | heartbeat : Event
  | keepalive : Event
  | done : String → Event
deriving DecidableEq, Repr

/-- Session state of the generator: the `seen` set (as a list in
insertion order) and the idle-cycle counter. -/
structure St where
  seen : List PyVal
  idle : Nat
deriving DecidableEq, Repr

/-- `normalized_card.pop('raw', None)` before emission. -/
def stripRaw (c : Card) : Card := { c with raw := none }

/-- The per-card loop of the success branch: normalize each record, keep
those whose id is unseen, adding their ids to `seen` as it goes.
Returns the list of (raw-stripped) cards to emit and the grown `seen`. -/
def processCards (shuf : List String → List String) (seen : List PyVal) :
    List RawCard → List Card × List PyVal
  | [] => ([], seen)
  | cd :: rest =>
    match normalize_card shuf cd with
    | Option.none => processCards shuf seen rest
    | Option.some nc =>
      if nc.card_id ∈ seen then processCards shuf seen rest
      else
        let r := processCards shuf (seen ++ [nc.card_id]) rest
        (stripRaw nc :: r.1, r.2)

/-- Events of a heartbeat check (`if now - last_heartbeat >= 15`). -/
def hbEvs (it : Iter) : List Event := if it.hb then [Event.heartbeat] else []

/-- Events of the bounded inter-poll sleep: with gevent the sleep yields
nothing; on sync workers a `keepalive` comment is yielded first. -/
def sleepEvs (gevent : Bool) : List Event := if gevent then [] else [Event.keepalive]

/-- `list(seen)[-1000:]`: `enum` models the arbitrary enumeration order
of `list(...)` over a Python `set` (a real run corresponds to some
permutation-producing `enum`). -/
def trimSeen (enum : List PyVal → List PyVal) (seen : List PyVal) : List PyVal :=
  (enum seen).drop ((enum seen).length - 1000)

/-- The conditional trim `if len(seen) > 1000: seen = set(list(seen)[-1000:])`. -/
def trimIf (enum : List PyVal → List PyVal) (seen : List PyVal) : List PyVal :=
  if 1000 < seen.length then trimSeen enum seen else seen

/-- One iteration of the `while True` loop of `event_stream`: the events
yielded during the iteration, and the state afterwards (`none` when the
generator breaks after a `done` event). -/
def stepIter (shuf : List String → List String) (enum : List PyVal → List PyVal)
    (gevent : Bool) (s : St) (it : Iter) : List Event × Option St :=
  if MAX_STREAM_DURATION < it.elapsed then
    ([Event.done "max_duration"], none)
  else
    match it.poll with
    | Poll.fail =>
        if STREAM_MAX_IDLE ≤ s.idle + 1 then ([Event.done "max_idle"], none)
        else (hbEvs it ++ sleepEvs gevent, some { s with idle := s.idle + 1 })
    | Poll.ok cards =>
        if (processCards shuf s.seen cards).1 ≠ [] then
          ([Event.data (processCards shuf s.seen cards).1] ++ sleepEvs gevent,
            some { seen := trimIf enum (processCards shuf s.seen cards).2, idle := 0 })
        else if STREAM_MAX_IDLE ≤ s.idle + 1 then
          (hbEvs it ++ [Event.done "max_idle"], none)
        else
          (hbEvs it ++ sleepEvs gevent,
            some { seen := trimIf enum (processCards shuf s.seen cards).2, idle := s.idle + 1 })
    | Poll.err m =>
        if STREAM_MAX_IDLE ≤ s.idle + 1 then
          ([Event.errEvent m] ++ hbEvs it ++ [Event.done "max_idle"], none)
        else ([Event.errEvent m] ++ hbEvs it ++ sleepEvs gevent,
          some { s with idle := s.idle + 1 })

/-- All events yielded while running the loop from state `s` over a
trace of iterations. -/
def runFrom (shuf : List String → List String) (enum : List PyVal → List PyVal)
    (gevent : Bool) : St → List Iter → List Event
  | _, [] => []
  | s, it :: its =>
    match stepIter shuf enum gevent s it with
    | (evs, Option.none) => evs
    | (evs, Option.some s') => evs ++ runFrom shuf enum gevent s' its

/-- Final state after running the loop from `s` (`none` once the
generator has emitted `done` and stopped). -/
def runStateFrom (shuf : List String → List String) (enum : List PyVal → List PyVal)
    (gevent : Bool) : St → List Iter → Option St
  | s, [] => some s
  | s, it :: its =>
    match stepIter shuf enum gevent s it with
    | (_, Option.none) => none
    | (_, Option.some s') => runStateFrom shuf enum gevent s' its

/-- Initial session state: `seen = set()`, `idle = 0`. -/
def initSt : St := { seen := [], idle := 0 }

/-- A whole stream session (`openStream`): run from the initial state. -/
def runStream (shuf : List String → List String) (enum : List PyVal → List PyVal)
    (gevent : Bool) (trace : List Iter) : List Event :=
  runFrom shuf enum gevent initSt trace

/-- Number of `data` events containing a card with the given id. -/
def dataEventsWithId (cid : PyVal) (evs : List Event) : Nat :=
  (evs.filter (fun e =>
    match e with
    | Event.data cs => cs.any (fun c => decide (c.card_id = cid))
    | _ => false)).length

/-- Whether an event is the terminal `done`. -/
def isDone : Event → Bool
  | Event.done _ => true
  | _ => false

/-- Number of `done` events in a list. -/
def countDone (evs : List Event) : Nat := (evs.filter isDone).length

/-- Every card of every `data` event has a truthy (non-empty) id. -/
def allDataTruthy (evs : List Event) : Bool :=
  evs.all (fun e =>
    match e with
    | Event.data cs => cs.all (fun c => pyTruthy c.card_id)
    | _ => true)

/-- The ids `normalize_card` would find in a list of raw records. -/
def rawIds (cards : List RawCard) : List PyVal := cards.filterMap getCardId

/-- Ids that can possibly be seen during a trace. -/
def traceIds (trace : List Iter) : List PyVal :=
  (trace.map (fun it =>
    match it.poll with
    | Poll.ok cs => rawIds cs
    | _ => [])).flatten

/-- A poll outcome that yields no new ids relative to the session's
current `seen` set: a failed fetch or timeout (`fetch_cards_from_api`
returns `(False, [])` for both), an in-loop exception, or a successful
fetch all of whose records are dropped (no id) or carry an
already-seen id — i.e. `processCards` emits nothing. -/
def isIdlePollFor (shuf : List String → List String) (seen : List PyVal) : Poll → Bool
  | Poll.fail => true
  | Poll.err _ => true
  | Poll.ok cs => ((processCards shuf seen cs).1).isEmpty

/-- An iteration that is a genuine poll cycle (duration cap not yet hit)
yielding no ids not already in `seen`. -/
def isIdleIterFor (shuf : List String → List String) (seen : List PyVal) (it : Iter) : Bool :=
  it.elapsed ≤ MAX_STREAM_DURATION && isIdlePollFor shuf seen it.poll

/-! ## General lemmas about the embedded functions -/

/-- `normalize_card` succeeds exactly when an id is found. -/
theorem normalize_card_eq_none_iff (shuf : List String → List String) (cd : RawCard) :
    normalize_card shuf cd = none ↔ getCardId cd = none := by
  unfold normalize_card getCardId
  by_cases h : pyTruthy (pyOr cd.card_id cd.id) = true <;> simp [h]

/-- The id of a normalized card is the one `getCardId` finds. -/
theorem normalize_card_id (shuf : List String → List String) (cd : RawCard) (nc : Card)
    (h : normalize_card shuf cd = some nc) : getCardId cd = some nc.card_id := by
  unfold normalize_card at h
  unfold getCardId
  by_cases ht : pyTruthy (pyOr cd.card_id cd.id) = true
  · simp only [ht, if_pos] at h ⊢
    cases h
    rfl
  · simp [ht] at h

/-- The id of a normalized card is truthy. -/
theorem normalize_card_truthy (shuf : List String → List String) (cd : RawCard) (nc : Card)
    (h : normalize_card shuf cd = some nc) : pyTruthy nc.card_id = true := by
  unfold normalize_card at h
  by_cases ht : pyTruthy (pyOr cd.card_id cd.id) = true
  · simp only [ht, if_pos] at h
    cases h
    exact ht
  · simp [ht] at h

/-- The grown `seen` is the old one plus the ids of the emitted cards,
in order. -/
theorem processCards_seen_eq (shuf : List String → List String) :
    ∀ (cards : List RawCard) (seen : List PyVal),
      (processCards shuf seen cards).2 =
        seen ++ ((processCards shuf seen cards).1).map Card.card_id := by
  intro cards
  induction cards with
  | nil => intro seen; simp [processCards]
  | cons cd rest ih =>
    intro seen
    unfold processCards
    cases hn : normalize_card shuf cd with
    | none => simpa using ih seen
    | some nc =>
      by_cases hm : nc.card_id ∈ seen
      · simpa [hm] using ih seen
      · simp only [hm, if_neg, if_false]
        have := ih (seen ++ [nc.card_id])
        simp only [List.map_cons]
        rw [this]
        simp [stripRaw]

/-- Emitted cards have ids that were not previously seen. -/
theorem processCards_fresh (shuf : List String → List String) :
    ∀ (cards : List RawCard) (seen : List PyVal) (c : Card),
      c ∈ (processCards shuf seen cards).1 → c.card_id ∉ seen := by
  intro cards
  induction cards with
  | nil => intro seen c hc; simp [processCards] at hc
  | cons cd rest ih =>
    intro seen c hc
    unfold processCards at hc
    cases hn : normalize_card shuf cd with
    | none =>
      rw [hn] at hc
      exact ih seen c hc
    | some nc =>
      rw [hn] at hc
      by_cases hm : nc.card_id ∈ seen
      · simp only [hm, if_pos] at hc
        exact ih seen c hc
      · simp only [hm, if_neg, if_false] at hc
        rcases List.mem_cons.mp hc with h | h
        · subst h
          simpa [stripRaw] using hm
        · intro habs
          exact (ih (seen ++ [nc.card_id]) c h) (List.mem_append_left _ habs)

/-- The ids of the emitted cards are pairwise distinct. -/
theorem processCards_ids_nodup (shuf : List String → List String) :
    ∀ (cards : List RawCard) (seen : List PyVal),
      (((processCards shuf seen cards).1).map Card.card_id).Nodup := by
  intro cards
  induction cards with
  | nil => intro seen; simp [processCards]
  | cons cd rest ih =>
    intro seen
    unfold processCards
    cases hn : normalize_card shuf cd with
    | none => exact ih seen
    | some nc =>
      by_cases hm : nc.card_id ∈ seen
      · simp only [hm, if_pos]
        exact ih seen
      · simp only [hm, if_neg, if_false, List.map_cons, List.nodup_cons]
        refine ⟨?_, ih (seen ++ [nc.card_id])⟩
        intro habs
        rcases List.mem_map.mp habs with ⟨c, hc, hid⟩
        have := processCards_fresh shuf rest (seen ++ [nc.card_id]) c hc
        apply this
        rw [hid]
        simp [stripRaw]

/-- Emitted ids come from the fetched records. -/
theorem processCards_ids_sub (shuf : List String → List String) :
    ∀ (cards : List RawCard) (seen : List PyVal) (c : Card),
      c ∈ (processCards shuf seen cards).1 → c.card_id ∈ rawIds cards := by
  intro cards
  induction cards with
  | nil => intro seen c hc; simp [processCards] at hc
  | cons cd rest ih =>
    intro seen c hc
    unfold processCards at hc
    have hsub : ∀ x, x ∈ rawIds rest → x ∈ rawIds (cd :: rest) := by
      intro x hx
      unfold rawIds at hx ⊢
      rw [List.filterMap_cons]
      cases getCardId cd <;> simp [hx]
    cases hn : normalize_card shuf cd with
    | none =>
      rw [hn] at hc
      exact hsub _ (ih seen c hc)
    | some nc =>
      rw [hn] at hc
      by_cases hm : nc.card_id ∈ seen
      · simp only [hm, if_pos] at hc
        exact hsub _ (ih seen c hc)
      · simp only [hm, if_neg, if_false] at hc
        rcases List.mem_cons.mp hc with h | h
        · subst h
          unfold rawIds
          rw [List.filterMap_cons, normalize_card_id shuf cd nc hn]
          simp [stripRaw]
        · exact hsub _ (ih (seen ++ [nc.card_id]) c h)

/-- Emitted cards all carry a truthy id. -/
theorem processCards_truthy (shuf : List String → List String) :
    ∀ (cards : List RawCard) (seen : List PyVal) (c : Card),
      c ∈ (processCards shuf seen cards).1 → pyTruthy c.card_id = true := by
  intro cards
  induction cards with
  | nil => intro seen c hc; simp [processCards] at hc
  | cons cd rest ih =>
    intro seen c hc
    unfold processCards at hc
    cases hn : normalize_card shuf cd with
    | none =>
      rw [hn] at hc
      exact ih seen c hc
    | some nc =>
      rw [hn] at hc
      by_cases hm : nc.card_id ∈ seen
      · simp only [hm, if_pos] at hc
        exact ih seen c hc
      · simp only [hm, if_neg, if_false] at hc
        rcases List.mem_cons.mp hc with h | h
        · subst h
          simpa [stripRaw] using normalize_card_truthy shuf cd nc hn
        · exact ih (seen ++ [nc.card_id]) c h

/-- A fetch whose records carry no ids emits nothing and leaves `seen`
unchanged. -/
theorem processCards_no_ids (shuf : List String → List String) :
    ∀ (cards : List RawCard) (seen : List PyVal),
      rawIds cards = [] → processCards shuf seen cards = ([], seen) := by
  intro cards
  induction cards with
  | nil => intro seen _; simp [processCards]
  | cons cd rest ih =>
    intro seen hr
    unfold rawIds at hr
    rw [List.filterMap_cons] at hr
    cases hg : getCardId cd with
    | none =>
      rw [hg] at hr
      unfold processCards
      have hn : normalize_card shuf cd = none := (normalize_card_eq_none_iff shuf cd).mpr hg
      rw [hn]
      exact ih seen hr
    | some v =>
      rw [hg] at hr
      simp at hr

/-! ## Event bookkeeping lemmas -/

/-- Heartbeat comment events are never `done`. -/
theorem hbEvs_noDone (it : Iter) : (hbEvs it).all (fun e => !isDone e) = true := by
  unfold hbEvs
  split <;> rfl

/-- Sleep keepalive events are never `done`. -/
theorem sleepEvs_noDone (gevent : Bool) : (sleepEvs gevent).all (fun e => !isDone e) = true := by
  unfold sleepEvs
  split <;> rfl

/-- A list of non-`done` events contributes no `done` count. -/
theorem countDone_eq_zero_of_all (evs : List Event)
    (h : evs.all (fun e => !isDone e) = true) : countDone evs = 0 := by
  unfold countDone
  rw [List.length_eq_zero]
  rw [List.filter_eq_nil_iff]
  intro e he
  have := (List.all_eq_true.mp h) e he
  simpa using this

/-- `countDone` distributes over append. -/
theorem countDone_append (a b : List Event) : countDone (a ++ b) = countDone a + countDone b := by
  unfold countDone
  rw [List.filter_append, List.length_append]

/-- `dataEventsWithId` distributes over append. -/
theorem dataEventsWithId_append (cid : PyVal) (a b : List Event) :
    dataEventsWithId cid (a ++ b) = dataEventsWithId cid a + dataEventsWithId cid b := by
  unfold dataEventsWithId
  rw [List.filter_append, List.length_append]

/-- Heartbeats carry no cards. -/
theorem dataEventsWithId_hbEvs (cid : PyVal) (it : Iter) :
    dataEventsWithId cid (hbEvs it) = 0 := by
  unfold hbEvs
  split <;> rfl

/-- Keepalives carry no cards. -/
theorem dataEventsWithId_sleepEvs (cid : PyVal) (gevent : Bool) :
    dataEventsWithId cid (sleepEvs gevent) = 0 := by
  unfold sleepEvs
  split <;> rfl

/-- If the generator steps to a live state, no `done` event was yielded. -/
theorem stepIter_some_noDone (shuf : List String → List String)
    (enum : List PyVal → List PyVal) (gevent : Bool) (s : St) (it : Iter)
    (evs : List Event) (s' : St)
    (h : stepIter shuf enum gevent s it = (evs, some s')) :
    evs.all (fun e => !isDone e) = true := by
  unfold stepIter at h
  split at h
  · simp at h
  · split at h
    · split at h
      · simp at h
      · cases h
        simp only [List.all_append, Bool.and_eq_true]
        exact ⟨hbEvs_noDone it, sleepEvs_noDone gevent⟩
    · split at h
      · cases h
        simp only [List.all_append, Bool.and_eq_true]
        exact ⟨rfl, sleepEvs_noDone gevent⟩
      · split at h
        · simp at h
        · cases h
          simp only [List.all_append, Bool.and_eq_true]
          exact ⟨hbEvs_noDone it, sleepEvs_noDone gevent⟩
    · split at h
      · simp at h
      · cases h
        simp only [List.all_append, Bool.and_eq_true]
        exact ⟨⟨rfl, hbEvs_noDone it⟩, sleepEvs_noDone gevent⟩

/-- If the generator stops, its last yielded event is a `done` and the
earlier events of the final iteration are not `done`. -/
theorem stepIter_none_shape (shuf : List String → List String)
    (enum : List PyVal → List PyVal) (gevent : Bool) (s : St) (it : Iter)
    (evs : List Event)
    (h : stepIter shuf enum gevent s it = (evs, none)) :
    ∃ pre r, evs = pre ++ [Event.done r] ∧ pre.all (fun e => !isDone e) = true := by
  unfold stepIter at h
  split at h
  · cases h
    exact ⟨[], "max_duration", rfl, rfl⟩
  · split at h
    · split at h
      · cases h
        exact ⟨[], "max_idle", rfl, rfl⟩
      · simp at h
    · split at h
      · simp at h
      · split at h
        · cases h
          exact ⟨hbEvs it, "max_idle", rfl, hbEvs_noDone it⟩
        · simp at h
    · split at h
      · cases h
        refine ⟨Event.errEvent _ :: hbEvs it, "max_idle", rfl, ?_⟩
        simp only [List.all_cons, Bool.and_eq_true]
        exact ⟨rfl, hbEvs_noDone it⟩
      · simp at h

/-- `runFrom` splits along an append of traces, continuing from the
intermediate state when the generator is still live. -/
theorem runFrom_append (shuf : List String → List String)
    (enum : List PyVal → List PyVal) (gevent : Bool) :
    ∀ (l1 l2 : List Iter) (s : St),
      runFrom shuf enum gevent s (l1 ++ l2) =
        runFrom shuf enum gevent s l1 ++
          (match runStateFrom shuf enum gevent s l1 with
           | Option.some s' => runFrom shuf enum gevent s' l2
           | Option.none => []) := by
  intro l1
  induction l1 with
  | nil => intro l2 s; simp [runFrom, runStateFrom]
  | cons it its ih =>
    intro l2 s
    rw [List.cons_append]
    cases h : stepIter shuf enum gevent s it with
    | mk evs os =>
      cases os with
      | none => simp [runFrom, runStateFrom, h]
      | some s' =>
        simp only [runFrom, runStateFrom, h]
        rw [ih l2 s', List.append_assoc]

/-- Running a single iteration yields exactly the step's events. -/
theorem runFrom_single (shuf : List String → List String)
    (enum : List PyVal → List PyVal) (gevent : Bool) (s : St) (it : Iter) :
    runFrom shuf enum gevent s [it] = (stepIter shuf enum gevent s it).1 := by
  unfold runFrom
  cases h : stepIter shuf enum gevent s it with
  | mk evs os =>
    cases os with
    | none => rfl
    | some s' => simp [runFrom]

/-- In any run, at most one `done` event is produced and every event
before the last one is not a `done`: nothing ever follows the terminal
event. -/
theorem run_done_once (shuf : List String → List String)
    (enum : List PyVal → List PyVal) (gevent : Bool) :
    ∀ (its : List Iter) (s : St),
      countDone (runFrom shuf enum gevent s its) ≤ 1 ∧
      (runFrom shuf enum gevent s its).dropLast.all (fun e => !isDone e) = true := by
  intro its
  induction its with
  | nil => intro s; simp [runFrom, countDone]
  | cons it rest ih =>
    intro s
    unfold runFrom
    cases h : stepIter shuf enum gevent s it with
    | mk evs os =>
      cases os with
      | none =>
        rcases stepIter_none_shape shuf enum gevent s it evs h with ⟨pre, r, hevs, hpre⟩
        subst hevs
        constructor
        · rw [countDone_append, countDone_eq_zero_of_all pre hpre]
          simp [countDone, isDone]
        · simpa using hpre
      | some s' =>
        have hno := stepIter_some_noDone shuf enum gevent s it evs s' h
        rcases ih s' with ⟨ih1, ih2⟩
        constructor
        · simp only []
          rw [countDone_append, countDone_eq_zero_of_all evs hno]
          simpa using ih1
        · simp only []
          by_cases hr : runFrom shuf enum gevent s' rest = []
          · rw [hr, List.append_nil]
            have hsub := List.dropLast_sublist evs
            rw [List.all_eq_true] at hno ⊢
            intro e he
            exact hno e (hsub.subset he)
          · rw [List.dropLast_append_of_ne_nil evs hr, List.all_append]
            rw [hno, ih2]
            rfl

/-- Heartbeats contain only truthy data (vacuously). -/
theorem allDataTruthy_hbEvs (it : Iter) : allDataTruthy (hbEvs it) = true := by
  unfold hbEvs
  split <;> rfl

/-- Keepalives contain only truthy data (vacuously). -/
theorem allDataTruthy_sleepEvs (gevent : Bool) : allDataTruthy (sleepEvs gevent) = true := by
  unfold sleepEvs
  split <;> rfl

/-- Every event yielded by a single loop iteration only carries cards
with truthy ids. -/
theorem stepIter_allDataTruthy (shuf : List String → List String)
    (enum : List PyVal → List PyVal) (gevent : Bool) (s : St) (it : Iter) :
    allDataTruthy (stepIter shuf enum gevent s it).1 = true := by
  unfold stepIter
  split
  · rfl
  · split
    · split
      · rfl
      · simp only [allDataTruthy, List.all_append, Bool.and_eq_true]
        exact ⟨allDataTruthy_hbEvs it, allDataTruthy_sleepEvs gevent⟩
    · split
      · simp only [allDataTruthy, List.all_append, List.all_cons, List.all_nil,
          Bool.and_eq_true, Bool.and_true]
        refine ⟨?_, allDataTruthy_sleepEvs gevent⟩
        rw [List.all_eq_true]
        intro c hc
        exact processCards_truthy shuf _ s.seen c hc
      · split
        · simp only [allDataTruthy, List.all_append, Bool.and_eq_true]
          exact ⟨allDataTruthy_hbEvs it, rfl⟩
        · simp only [allDataTruthy, List.all_append, Bool.and_eq_true]
          exact ⟨allDataTruthy_hbEvs it, allDataTruthy_sleepEvs gevent⟩
    · split
      · cases hhb : it.hb <;> simp [allDataTruthy, hbEvs, hhb]
      · cases hhb : it.hb <;> cases hg : gevent <;>
          simp [allDataTruthy, hbEvs, sleepEvs, hhb, hg]

/-- Every event of every run only carries cards with truthy ids. -/
theorem run_allDataTruthy (shuf : List String → List String)
    (enum : List PyVal → List PyVal) (gevent : Bool) :
    ∀ (its : List Iter) (s : St), allDataTruthy (runFrom shuf enum gevent s its) = true := by
  intro its
  induction its with
  | nil => intro s; rfl
  | cons it rest ih =>
    intro s
    unfold runFrom
    cases h : stepIter shuf enum gevent s it with
    | mk evs os =>
      have hevs : allDataTruthy evs = true := by
        have := stepIter_allDataTruthy shuf enum gevent s it
        rwa [h] at this
      cases os with
      | none => exact hevs
      | some s' =>
        simp only [allDataTruthy, List.all_append, Bool.and_eq_true]
        exact ⟨hevs, ih s'⟩

/-- A live idle cycle: the idle counter increments, the seen set is
unchanged, and nothing terminal is yielded. -/
theorem stepIter_idle_live (shuf : List String → List String)
    (enum : List PyVal → List PyVal) (gevent : Bool) (s : St) (it : Iter)
    (hit : isIdleIterFor shuf s.seen it = true) (hlen : s.seen.length ≤ 1000)
    (hlt : s.idle + 1 < STREAM_MAX_IDLE) :
    ∃ evs, stepIter shuf enum gevent s it = (evs, some (St.mk s.seen (s.idle + 1))) ∧
      countDone evs = 0 := by
  unfold isIdleIterFor at hit
  rw [Bool.and_eq_true] at hit
  have hel : ¬ MAX_STREAM_DURATION < it.elapsed := by
    have := of_decide_eq_true hit.1
    omega
  have hidle : ¬ STREAM_MAX_IDLE ≤ s.idle + 1 := by omega
  rcases hit with ⟨-, hp⟩
  have hcd : countDone (hbEvs it ++ sleepEvs gevent) = 0 := by
    apply countDone_eq_zero_of_all
    simp only [List.all_append, Bool.and_eq_true]
    exact ⟨hbEvs_noDone it, sleepEvs_noDone gevent⟩
  cases hpoll : it.poll with
  | fail =>
    refine ⟨hbEvs it ++ sleepEvs gevent, ?_, hcd⟩
    simp [stepIter, hpoll, hel, hidle]
  | ok cs =>
    rw [hpoll] at hp
    simp only [isIdlePollFor] at hp
    have hpc1 : (processCards shuf s.seen cs).1 = [] := by
      rwa [List.isEmpty_iff] at hp
    have hpc2 : (processCards shuf s.seen cs).2 = s.seen := by
      rw [processCards_seen_eq shuf cs s.seen, hpc1]
      simp
    have htr : trimIf enum (processCards shuf s.seen cs).2 = s.seen := by
      rw [hpc2]
      unfold trimIf
      rw [if_neg (by omega)]
    refine ⟨hbEvs it ++ sleepEvs gevent, ?_, hcd⟩
    simp [stepIter, hpoll, hel, hidle, hpc1, htr]
  | err m =>
    refine ⟨Event.errEvent m :: (hbEvs it ++ sleepEvs gevent), ?_, ?_⟩
    · simp [stepIter, hpoll, hel, hidle]
    · apply countDone_eq_zero_of_all
      simp only [List.all_cons, List.all_append, Bool.and_eq_true]
      exact ⟨rfl, hbEvs_noDone it, sleepEvs_noDone gevent⟩

/-- The terminal idle cycle: when the incremented idle counter reaches
`STREAM_MAX_IDLE`, the iteration ends the stream with `done "max_idle"`. -/
theorem stepIter_idle_done (shuf : List String → List String)
    (enum : List PyVal → List PyVal) (gevent : Bool) (s : St) (it : Iter)
    (hit : isIdleIterFor shuf s.seen it = true) (hge : STREAM_MAX_IDLE ≤ s.idle + 1) :
    ∃ pre, stepIter shuf enum gevent s it = (pre ++ [Event.done "max_idle"], none) ∧
      countDone pre = 0 := by
  unfold isIdleIterFor at hit
  rw [Bool.and_eq_true] at hit
  have hel : ¬ MAX_STREAM_DURATION < it.elapsed := by
    have := of_decide_eq_true hit.1
    omega
  rcases hit with ⟨-, hp⟩
  cases hpoll : it.poll with
  | fail =>
    refine ⟨[], ?_, rfl⟩
    simp [stepIter, hpoll, hel, hge]
  | ok cs =>
    rw [hpoll] at hp
    simp only [isIdlePollFor] at hp
    have hpc1 : (processCards shuf s.seen cs).1 = [] := by
      rwa [List.isEmpty_iff] at hp
    refine ⟨hbEvs it, ?_, countDone_eq_zero_of_all _ (hbEvs_noDone it)⟩
    simp [stepIter, hpoll, hel, hge, hpc1]
  | err m =>
    refine ⟨Event.errEvent m :: hbEvs it, ?_, ?_⟩
    · simp [stepIter, hpoll, hel, hge]
    · apply countDone_eq_zero_of_all
      simp only [List.all_cons, Bool.and_eq_true]
      exact ⟨rfl, hbEvs_noDone it⟩

/-- Unfolding a run one live step. -/
theorem runFrom_cons_some (shuf : List String → List String)
    (enum : List PyVal → List PyVal) (gevent : Bool) (s s' : St) (it : Iter)
    (its : List Iter) (evs : List Event)
    (h : stepIter shuf enum gevent s it = (evs, some s')) :
    runFrom shuf enum gevent s (it :: its) = evs ++ runFrom shuf enum gevent s' its := by
  simp only [runFrom]
  rw [h]

/-- Unfolding a run one terminal step. -/
theorem runFrom_cons_none (shuf : List String → List String)
    (enum : List PyVal → List PyVal) (gevent : Bool) (s : St) (it : Iter)
    (its : List Iter) (evs : List Event)
    (h : stepIter shuf enum gevent s it = (evs, none)) :
    runFrom shuf enum gevent s (it :: its) = evs := by
  simp only [runFrom]
  rw [h]

/-- Unfolding the state evolution one live step. -/
theorem runStateFrom_cons_some (shuf : List String → List String)
    (enum : List PyVal → List PyVal) (gevent : Bool) (s s' : St) (it : Iter)
    (its : List Iter) (evs : List Event)
    (h : stepIter shuf enum gevent s it = (evs, some s')) :
    runStateFrom shuf enum gevent s (it :: its) = runStateFrom shuf enum gevent s' its := by
  simp only [runStateFrom]
  rw [h]

/-- Unfolding the state evolution one terminal step. -/
theorem runStateFrom_cons_none (shuf : List String → List String)
    (enum : List PyVal → List PyVal) (gevent : Bool) (s : St) (it : Iter)
    (its : List Iter) (evs : List Event)
    (h : stepIter shuf enum gevent s it = (evs, none)) :
    runStateFrom shuf enum gevent s (it :: its) = none := by
  simp only [runStateFrom]
  rw [h]

/-- Fewer than `STREAM_MAX_IDLE` accumulated idle cycles never terminate
the stream: no `done` is emitted, the seen set is unchanged, and the
idle counter equals the number of consecutive idle cycles. -/
theorem idle_run_lt (shuf : List String → List String)
    (enum : List PyVal → List PyVal) (gevent : Bool) :
    ∀ (its : List Iter) (s : St),
      (∀ it ∈ its, isIdleIterFor shuf s.seen it = true) →
      s.seen.length ≤ 1000 →
      s.idle + its.length < STREAM_MAX_IDLE →
      countDone (runFrom shuf enum gevent s its) = 0 ∧
      runStateFrom shuf enum gevent s its = some (St.mk s.seen (s.idle + its.length)) := by
  intro its
  induction its with
  | nil =>
    intro s _ _ _
    refine ⟨rfl, ?_⟩
    simp [runStateFrom]
  | cons it rest ih =>
    intro s hall hlen hcnt
    have hit := hall it (List.mem_cons_self it rest)
    have hlt : s.idle + 1 < STREAM_MAX_IDLE := by
      simp only [List.length_cons] at hcnt
      omega
    rcases stepIter_idle_live shuf enum gevent s it hit hlen hlt with ⟨evs, hstep, hcd⟩
    have hrest : ∀ x ∈ rest, isIdleIterFor shuf (St.mk s.seen (s.idle + 1)).seen x = true :=
      fun x hx => hall x (List.mem_cons_of_mem it hx)
    have hcnt2 : (St.mk s.seen (s.idle + 1)).idle + rest.length < STREAM_MAX_IDLE := by
      show s.idle + 1 + rest.length < STREAM_MAX_IDLE
      simp only [List.length_cons] at hcnt
      omega
    rcases ih (St.mk s.seen (s.idle + 1)) hrest hlen hcnt2 with ⟨ih1, ih2⟩
    constructor
    · rw [runFrom_cons_some shuf enum gevent s _ it rest evs hstep]
      rw [countDone_append, hcd, ih1]
    · have harith : s.idle + (it :: rest).length = s.idle + 1 + rest.length := by
        simp only [List.length_cons]
        omega
      rw [runStateFrom_cons_some shuf enum gevent s _ it rest evs hstep, harith]
      exact ih2

/-- Exactly at the `STREAM_MAX_IDLE`-th consecutive idle cycle the
stream emits `done "max_idle"` as its final event (and that is the only
`done`). -/
theorem idle_run_done (shuf : List String → List String)
    (enum : List PyVal → List PyVal) (gevent : Bool) :
    ∀ (its : List Iter) (s : St),
      (∀ it ∈ its, isIdleIterFor shuf s.seen it = true) →
      s.seen.length ≤ 1000 →
      s.idle + its.length = STREAM_MAX_IDLE →
      its ≠ [] →
      (runFrom shuf enum gevent s its).getLast? = some (Event.done "max_idle") ∧
      countDone (runFrom shuf enum gevent s its) = 1 := by
  intro its
  induction its with
  | nil => intro s _ _ _ hne; exact absurd rfl hne
  | cons it rest ih =>
    intro s hall hlen hcnt _
    have hit := hall it (List.mem_cons_self it rest)
    by_cases hrest : rest = []
    · subst hrest
      have hge : STREAM_MAX_IDLE ≤ s.idle + 1 := by
        simp only [List.length_cons, List.length_nil] at hcnt
        omega
      rcases stepIter_idle_done shuf enum gevent s it hit hge with ⟨pre, hstep, hcd⟩
      rw [runFrom_cons_none shuf enum gevent s it [] _ hstep]
      constructor
      · exact List.getLast?_concat pre
      · rw [countDone_append, hcd]
        rfl
    · have hlt : s.idle + 1 < STREAM_MAX_IDLE := by
        have : 1 ≤ rest.length := by
          cases hr2 : rest with
          | nil => exact absurd hr2 hrest
          | cons a b => simp
        simp only [List.length_cons] at hcnt
        omega
      rcases stepIter_idle_live shuf enum gevent s it hit hlen hlt with ⟨evs, hstep, hcd⟩
      have hrestall : ∀ x ∈ rest, isIdleIterFor shuf (St.mk s.seen (s.idle + 1)).seen x = true :=
        fun x hx => hall x (List.mem_cons_of_mem it hx)
      have hcnt2 : (St.mk s.seen (s.idle + 1)).idle + rest.length = STREAM_MAX_IDLE := by
        show s.idle + 1 + rest.length = STREAM_MAX_IDLE
        simp only [List.length_cons] at hcnt
        omega
      rcases ih (St.mk s.seen (s.idle + 1)) hrestall hlen hcnt2 hrest with ⟨ih1, ih2⟩
      rw [runFrom_cons_some shuf enum gevent s _ it rest evs hstep]
      constructor
      · rw [List.getLast?_append, ih1]
        rfl
      · rw [countDone_append, hcd, ih2]

/-! ## Claim theorems -/

/-- Claim C2: a raw card record whose two id keys are both absent or
falsy normalizes to null (`normalize_card` returns `none` exactly in
that case), and every card of every `data` event emitted by a stream
session has a truthy — in particular non-empty — id. -/
theorem C2_no_id_never_emitted (shuf : List String → List String)
    (enum : List PyVal → List PyVal) (gevent : Bool) (cd : RawCard) (trace : List Iter) :
    (normalize_card shuf cd).isNone = !pyTruthy (pyOr cd.card_id cd.id) ∧
    allDataTruthy (runStream shuf enum gevent trace) = true := by
  constructor
  · unfold normalize_card
    by_cases h : pyTruthy (pyOr cd.card_id cd.id) = true <;> simp [h]
  · exact run_allDataTruthy shuf enum gevent trace initSt

/-- Claim C3: in every stream session at most one terminal `done` event
is emitted and nothing follows it; and from any point where the idle
counter is zero (session start, or just after a `data` event), a run of
consecutive poll cycles yielding no new card ids — fetch failures and
timeouts (`fetch_cards_from_api` returns `(False, [])` for both),
in-loop exceptions, and successful fetches whose records are all
dropped or already seen, counted alike — terminates the stream with
`done "max_idle"` at exactly the `STREAM_MAX_IDLE` = 30th such cycle;
with strictly fewer, no `done` is emitted.  The cycles are genuine poll
cycles (the 300 s duration cap has not been hit at their loop tops),
and the seen-set bound `s.seen.length ≤ 1000` holds for every reachable
state (it holds at session start and is preserved by every step, see
`seen_bound_run`). -/
theorem C3_max_idle_termination (shuf : List String → List String)
    (enum : List PyVal → List PyVal) (gevent : Bool) :
    (∀ trace : List Iter,
       countDone (runStream shuf enum gevent trace) ≤ 1 ∧
       (runStream shuf enum gevent trace).dropLast.all (fun e => !isDone e) = true) ∧
    (∀ (s : St) (its : List Iter),
       s.idle = 0 → s.seen.length ≤ 1000 →
       (∀ it ∈ its, isIdleIterFor shuf s.seen it = true) →
       (its.length = STREAM_MAX_IDLE →
          (runFrom shuf enum gevent s its).getLast? = some (Event.done "max_idle") ∧
          countDone (runFrom shuf enum gevent s its) = 1) ∧
       (its.length < STREAM_MAX_IDLE →
          countDone (runFrom shuf enum gevent s its) = 0)) := by
  constructor
  · intro trace
    exact run_done_once shuf enum gevent trace initSt
  · intro s its hidle hlen hall
    constructor
    · intro hlenits
      apply idle_run_done shuf enum gevent its s hall hlen
      · rw [hidle, Nat.zero_add]
        exact hlenits
      · intro habs
        rw [habs] at hlenits
        simp [STREAM_MAX_IDLE] at hlenits
    · intro hlenits
      refine (idle_run_lt shuf enum gevent its s hall hlen ?_).1
      rw [hidle, Nat.zero_add]
      exact hlenits

/-- A card re-fetched on every poll after it was already delivered. -/
def reFetched : RawCard :=
  RawCard.mk (PyVal.str "c1") PyVal.none PyVal.none PyVal.none [] PyVal.none
    PyVal.none PyVal.none PyVal.none PyVal.none PyVal.none

/-- Thirty idle poll cycles: fifteen failed fetches followed by fifteen
successful fetches that return only the already-seen card. -/
def mixedIdleTrace30 : List Iter :=
  List.replicate 15 (Iter.mk 5 Poll.fail true) ++
    List.replicate 15 (Iter.mk 6 (Poll.ok [reFetched]) false)

/-- Witness for C3: from a session that has already delivered card
`"c1"`, fifteen failed polls followed by fifteen successful re-fetches
of that same card end the stream with a single `done "max_idle"`. -/
theorem C3_max_idle_termination_witness :
    (runFrom id id true (St.mk [PyVal.str "c1"] 0) mixedIdleTrace30).getLast? =
      some (Event.done "max_idle") ∧
    countDone (runFrom id id true (St.mk [PyVal.str "c1"] 0) mixedIdleTrace30) = 1 :=
  ((C3_max_idle_termination id id true).2 (St.mk [PyVal.str "c1"] 0) mixedIdleTrace30
    rfl (by decide) (by decide)).1 (by decide)

/-- Claim C4: whenever the loop top observes more than
`MAX_STREAM_DURATION` = 300 elapsed seconds while the session is still
open, that iteration emits `done "max_duration"` and the stream stops —
regardless of the poll outcome and of the session state (cards may well
still be flowing). -/
theorem C4_max_duration (shuf : List String → List String)
    (enum : List PyVal → List PyVal) (gevent : Bool)
    (pre : List Iter) (it : Iter) (rest : List Iter) (s : St)
    (hopen : runStateFrom shuf enum gevent initSt pre = some s)
    (hdur : MAX_STREAM_DURATION < it.elapsed) :
    stepIter shuf enum gevent s it = ([Event.done "max_duration"], none) ∧
    runStream shuf enum gevent (pre ++ it :: rest) =
      runStream shuf enum gevent pre ++ [Event.done "max_duration"] := by
  have hstep : stepIter shuf enum gevent s it = ([Event.done "max_duration"], none) := by
    unfold stepIter
    rw [if_pos hdur]
  refine ⟨hstep, ?_⟩
  unfold runStream
  rw [runFrom_append shuf enum gevent pre (it :: rest) initSt, hopen]
  congr 1
  exact runFrom_cons_none shuf enum gevent s it rest _ hstep

/-- Witness for C4: a first loop iteration observing 301 s immediately
closes the stream with `done "max_duration"`. -/
theorem C4_max_duration_witness :
    stepIter id id true initSt (Iter.mk 301 Poll.fail false) =
      ([Event.done "max_duration"], none) ∧
    runStream id id true ([] ++ Iter.mk 301 Poll.fail false :: []) =
      runStream id id true [] ++ [Event.done "max_duration"] :=
  C4_max_duration id id true [] (Iter.mk 301 Poll.fail false) [] initSt rfl (by decide)

/-- Claim C6: the three given page-range validations behave as
specified; the out-of-range message names both the requested start page
and the total page count. -/
theorem C6_validate_page_range_cases :
    validate_page_range (some 5) (some 3) 10 =
      (false, some "Start page must be less than or equal to end page") ∧
    validate_page_range (some 11) none 10 =
      (false, some "Start page (11) exceeds total pages (10)") ∧
    strContains "Start page (11) exceeds total pages (10)" "11" = true ∧
    strContains "Start page (11) exceeds total pages (10)" "10" = true ∧
    validate_page_range (some 1) (some 10) 10 = (true, none) :=
  ⟨by decide, by decide, by decide, by decide, by decide⟩

/-- Claim C7: every entry built by `build_question_types` carries
difficulty `"Basic"` when it is the True/False type and the requested
difficulty otherwise; in particular the documented example holds. -/
theorem C7_true_false_forced_basic :
    (∀ (types : List String) (difficulty : String) (q : QType),
       q ∈ build_question_types types difficulty →
       q.difficultyGroup =
         (if q.cardType = "True/False Question" then "Basic" else difficulty)) ∧
    build_question_types ["True/False Question", "Multiple Choice Question"] "Advanced" =
      [QType.mk "True/False Question" "Basic",
       QType.mk "Multiple Choice Question" "Advanced"] := by
  constructor
  · intro types difficulty q hq
    induction types with
    | nil => simp [build_question_types] at hq
    | cons t rest ih =>
      unfold build_question_types at hq
      cases hmap : QUESTION_TYPE_MAPPING t with
      | none =>
        rw [hmap] at hq
        exact ih hq
      | some ct =>
        rw [hmap] at hq
        rcases List.mem_cons.mp hq with h | h
        · subst h
          by_cases ht : t = "True/False Question"
          · subst ht
            have hct : ct = "True/False Question" := by
              have hv : QUESTION_TYPE_MAPPING "True/False Question" =
                  some "True/False Question" := by rfl
              rw [hv] at hmap
              exact (Option.some.injEq _ _ ▸ hmap).symm
            subst hct
            simp
          · rw [if_neg ht]
            have hct : ct ≠ "True/False Question" := by
              unfold QUESTION_TYPE_MAPPING at hmap
              split_ifs at hmap <;>
                first
                  | exact absurd (by assumption : t = "True/False Question") ht
                  | (cases hmap; decide)
            simp [hct]
        · exact ih h
  · decide

/-- Witness for C7: the built entry for the True/False type under
requested difficulty `"Advanced"` carries group `"Basic"`. -/
theorem C7_true_false_forced_basic_witness :
    (QType.mk "True/False Question" "Basic").difficultyGroup =
      (if (QType.mk "True/False Question" "Basic").cardType = "True/False Question"
       then "Basic" else "Advanced") :=
  C7_true_false_forced_basic.1 ["True/False Question"] "Advanced"
    (QType.mk "True/False Question" "Basic") (by decide)

/-- With a non-empty distractor list, `build_options` is exactly the
shuffle of the distractors plus the normalized answer when truthy. -/
theorem build_options_ne_nil_eq (shuf : List String → List String)
    (answer : PyVal) (distractors : List String) (card_type : PyVal)
    (hshuf : ∀ l : List String, (shuf l).Perm l) (hd : distractors ≠ []) :
    build_options shuf answer distractors card_type =
      shuf (distractors ++ if pyTruthy answer then [normalize_answer answer] else []) := by
  have hbase : distractors ++
      (if pyTruthy answer then [normalize_answer answer] else []) ≠ [] := by
    intro habs
    rcases List.append_eq_nil.mp habs with ⟨h1, _⟩
    exact hd h1
  have hsb : shuf (distractors ++
      (if pyTruthy answer then [normalize_answer answer] else [])) ≠ [] := by
    intro habs
    apply hbase
    have hlen := (hshuf (distractors ++
      (if pyTruthy answer then [normalize_answer answer] else []))).length_eq
    rw [habs] at hlen
    exact List.eq_nil_of_length_eq_zero hlen.symm
  simp only [build_options, if_neg hd]
  rw [decide_eq_false hsb]
  simp only [Bool.false_and, Bool.false_eq_true, if_false]

/-- With an empty distractor list, `build_options` ignores the shuffle
entirely. -/
theorem build_options_nil_eq (shuf : List String → List String)
    (answer : PyVal) (card_type : PyVal) :
    build_options shuf answer [] card_type =
      (if strContains (pyLower (pyStr (pyOr card_type (PyVal.str "")))) "true"
          || strContains (pyLower (pyStr (pyOr card_type (PyVal.str "")))) "false"
       then ["True", "False"]
       else if isTrueFalseString answer then ["True", "False"] else []) := by
  simp only [build_options]
  simp

/-- Claim C8 (counterexample): with a non-empty distractor list but a
falsy answer (`False`), `build_options` omits the answer: the result is
only the distractors, not a permutation of distractors plus the
normalized answer `"False"` as the claim requires.  A singleton list is
invariant under every shuffle, so `id` here exhibits every possible
run. -/
theorem C8_counterexample :
    build_options id (PyVal.bool false) ["x"] PyVal.none = ["x"] ∧
    ¬ (build_options id (PyVal.bool false) ["x"] PyVal.none).Perm
        (["x"] ++ [normalize_answer (PyVal.bool false)]) :=
  ⟨by decide, by decide⟩

/-- Claim C8 (amended): with a non-empty distractor list the options are
a shuffle of the distractors plus — only when the answer is truthy — the
normalized answer; with an empty distractor list they are
`["True","False"]` when the lowered card type mentions true/false or the
answer is a true/false string, and empty otherwise. -/
theorem C8_build_options_amended (shuf : List String → List String)
    (answer : PyVal) (distractors : List String) (card_type : PyVal)
    (hshuf : ∀ l : List String, (shuf l).Perm l) :
    (distractors ≠ [] →
      (build_options shuf answer distractors card_type).Perm
        (distractors ++ if pyTruthy answer then [normalize_answer answer] else [])) ∧
    (distractors = [] →
      build_options shuf answer distractors card_type =
        (if strContains (pyLower (pyStr (pyOr card_type (PyVal.str "")))) "true"
            || strContains (pyLower (pyStr (pyOr card_type (PyVal.str "")))) "false"
         then ["True", "False"]
         else if isTrueFalseString answer then ["True", "False"] else [])) := by
  constructor
  · intro hd
    rw [build_options_ne_nil_eq shuf answer distractors card_type hshuf hd]
    exact hshuf _
  · intro hd
    subst hd
    exact build_options_nil_eq shuf answer card_type

/-- Witness for C8 (amended): a truthy answer is appended to the
distractors before shuffling. -/
theorem C8_build_options_amended_witness :
    (build_options id (PyVal.str "a") ["x", "y"] PyVal.none).Perm
      (["x", "y"] ++
        if pyTruthy (PyVal.str "a") then [normalize_answer (PyVal.str "a")] else []) :=
  (C8_build_options_amended id (PyVal.str "a") ["x", "y"] PyVal.none
    (fun l => List.Perm.refl l)).1 (by decide)

/-- A parsed page bound is never negative (digit strings only). -/
theorem parsePageBound_nonneg (s : String) (n : Int) (h : parsePageBound s = some n) :
    0 ≤ n := by
  simp only [parsePageBound] at h
  split at h
  · cases h
    exact Int.natCast_nonneg _
  · cases h

/-- Claim C10 (counterexample): the \"Start page must be at least 1\"
check is not reachable *only* via the literal form input `\"0\"`: the
input `\"00\"` also parses to 0 and triggers it. -/
theorem C10_counterexample :
    parsePageBound "00" = some 0 ∧ ¬ ("00" = "0") ∧
    validate_page_range (parsePageBound "00") none 10 =
      (false, some "Start page must be at least 1") :=
  ⟨by decide, by decide, by decide⟩

/-- Claim C10 (amended): a non-empty form value that is not all decimal
digits parses to `none` (so the bound is silently unspecified and never
yields a validation error about the value); a parsed bound is never
negative, so the \"at least 1\" guard — the first guard of
`validate_page_range`, written out verbatim in the third conjunct — can
fire only when the bound parsed to exactly 0, which happens precisely
for digit strings of value 0 (`\"0\"`, `\"00\"`, ...); and parsing a
start page of 0 does make `validate_page_range` fail with that message. -/
theorem C10_nondigit_bounds_ignored :
    (∀ s : String, pyStrip s ≠ "" → ¬ ((pyStrip s).toList.all Char.isDigit = true) →
       parsePageBound s = none) ∧
    (∀ (s : String) (n : Int), parsePageBound s = some n → 0 ≤ n) ∧
    (∀ s : String,
       ((match parsePageBound s with
         | Option.some v => decide (v < 1)
         | Option.none => false) = true) ↔ parsePageBound s = some 0) ∧
    (∀ (ep : Option Int) (total : Int),
       validate_page_range (some 0) ep total =
         (false, some "Start page must be at least 1")) ∧
    parsePageBound "-3" = none ∧ parsePageBound "2.5" = none ∧
    parsePageBound "abc" = none := by
  refine ⟨?_, parsePageBound_nonneg, ?_, ?_, by decide, by decide, by decide⟩
  · intro s h1 h2
    simp only [parsePageBound]
    split
    · rename_i hcond
      rw [Bool.and_eq_true] at hcond
      exact absurd hcond.2 h2
    · rfl
  · intro s
    cases hp : parsePageBound s with
    | none => simp
    | some v =>
      have hnn : 0 ≤ v := parsePageBound_nonneg s v hp
      simp only [Option.some.injEq]
      constructor
      · intro hlt
        have := of_decide_eq_true hlt
        omega
      · intro hv
        subst hv
        decide
  · intro ep total
    rfl

/-- Witness for C10 (amended): applications at concrete inputs. -/
theorem C10_nondigit_bounds_ignored_witness :
    parsePageBound "x7" = none ∧ (0 : Int) ≤ 7 ∧
    (((match parsePageBound "00" with
       | Option.some v => decide (v < 1)
       | Option.none => false) = true) ↔ parsePageBound "00" = some 0) ∧
    validate_page_range (some 0) (some 3) 10 =
      (false, some "Start page must be at least 1") :=
  ⟨C10_nondigit_bounds_ignored.1 "x7" (by decide) (by decide),
   C10_nondigit_bounds_ignored.2.1 " 7 " 7 (by decide),
   C10_nondigit_bounds_ignored.2.2.1 "00",
   C10_nondigit_bounds_ignored.2.2.2.1 (some 3) 10⟩

/-- Discard the `options` field (the shuffle-dependent part) of a card. -/
def eraseOptions (c : Card) : Card := { c with options := [] }

/-- A representative multiple-choice raw card. -/
def sampleRaw : RawCard :=
  RawCard.mk (PyVal.str "c1") PyVal.none (PyVal.str "Paris")
    (PyVal.str "Multiple Choice Question") ["London", "Berlin"]
    (PyVal.str "Capital of France?") PyVal.none PyVal.none PyVal.none
    PyVal.none PyVal.none

/-- Claim C9: `normalize_card` is deterministic up to options order: for
any two shuffles (two runs on the same raw record), either both runs
return null, or every field except `options` — id, question, case
details, type, answer, explanation, raw — is equal, and the two
`options` lists are permutations of each other (equal as multisets). -/
theorem C9_normalize_deterministic (shuf1 shuf2 : List String → List String)
    (cd : RawCard)
    (h1 : ∀ l : List String, (shuf1 l).Perm l)
    (h2 : ∀ l : List String, (shuf2 l).Perm l) :
    Option.map eraseOptions (normalize_card shuf1 cd) =
      Option.map eraseOptions (normalize_card shuf2 cd) ∧
    (((normalize_card shuf1 cd).map Card.options).getD []).Perm
      (((normalize_card shuf2 cd).map Card.options).getD []) := by
  by_cases ht : pyTruthy (pyOr cd.card_id cd.id) = true
  · constructor
    · simp [normalize_card, ht, eraseOptions]
    · simp only [normalize_card, ht, if_pos, Option.map_some, Option.getD_some]
      by_cases hd : cd.distractors = []
      · rw [hd, build_options_nil_eq, build_options_nil_eq]
      · rw [build_options_ne_nil_eq shuf1 _ _ _ h1 hd,
            build_options_ne_nil_eq shuf2 _ _ _ h2 hd]
        exact (h1 _).trans (h2 _).symm
  · constructor <;> simp [normalize_card, ht]

/-- Witness for C9: the identity and reversal shuffles agree on the
sample card except for options order. -/
theorem C9_normalize_deterministic_witness :
    Option.map eraseOptions (normalize_card id sampleRaw) =
      Option.map eraseOptions (normalize_card List.reverse sampleRaw) ∧
    (((normalize_card id sampleRaw).map Card.options).getD []).Perm
      (((normalize_card List.reverse sampleRaw).map Card.options).getD []) :=
  C9_normalize_deterministic id List.reverse sampleRaw
    (fun l => List.Perm.refl l) (fun l => List.reverse_perm l)

/-- A nodup list inside `u` has at most as many elements as `u` has
distinct ones. -/
theorem nodup_subset_length_le (l u : List PyVal) (hn : l.Nodup) (hs : l ⊆ u) :
    l.length ≤ u.toFinset.card := by
  rw [← List.toFinset_card_of_nodup hn]
  apply Finset.card_le_card
  intro x hx
  rw [List.mem_toFinset] at hx ⊢
  exact hs hx

/-- Error payloads carry no cards. -/
theorem dataEventsWithId_errEvent (cid : PyVal) (m : String) :
    dataEventsWithId cid [Event.errEvent m] = 0 := rfl

/-- Terminal events carry no cards. -/
theorem dataEventsWithId_done (cid : PyVal) (r : String) :
    dataEventsWithId cid [Event.done r] = 0 := rfl

/-- Counting a single `data` event. -/
theorem dataEventsWithId_data (cid : PyVal) (cs : List Card) :
    dataEventsWithId cid [Event.data cs] =
      if cs.any (fun c => decide (c.card_id = cid)) then 1 else 0 := by
  unfold dataEventsWithId
  cases h : cs.any (fun c => decide (c.card_id = cid)) <;> simp [List.filter, h]

/-- Splitting the possibly-seen ids of a trace at its head. -/
theorem traceIds_cons (it : Iter) (its : List Iter) :
    traceIds (it :: its) =
      (match it.poll with | Poll.ok cs => rawIds cs | _ => []) ++ traceIds its := by
  simp [traceIds]

/-- Deduplication invariant: as long as at most 1000 distinct ids can
ever be fetched (`U` bounds them), no id is delivered in two `data`
events, and an id already in `seen` is never delivered again. -/
theorem dedup_run (shuf : List String → List String)
    (enum : List PyVal → List PyVal) (gevent : Bool) :
    ∀ (its : List Iter) (s : St) (U : List PyVal),
      s.seen.Nodup → s.seen ⊆ U → traceIds its ⊆ U → U.toFinset.card ≤ 1000 →
      ∀ cid : PyVal,
        dataEventsWithId cid (runFrom shuf enum gevent s its) ≤ 1 ∧
        (cid ∈ s.seen → dataEventsWithId cid (runFrom shuf enum gevent s its) = 0) := by
  intro its
  induction its with
  | nil =>
    intro s U _ _ _ _ cid
    exact ⟨by simp [runFrom, dataEventsWithId], fun _ => by simp [runFrom, dataEventsWithId]⟩
  | cons it rest ih =>
    intro s U hnd hsU htU hcard cid
    have htUr : traceIds rest ⊆ U := by
      intro x hx
      apply htU
      rw [traceIds_cons]
      exact List.mem_append_right _ hx
    by_cases hdur : MAX_STREAM_DURATION < it.elapsed
    · have hstep : stepIter shuf enum gevent s it = ([Event.done "max_duration"], none) := by
        unfold stepIter
        rw [if_pos hdur]
      rw [runFrom_cons_none shuf enum gevent s it rest _ hstep]
      rw [dataEventsWithId_done]
      exact ⟨by omega, fun _ => rfl⟩
    · cases hpoll : it.poll with
      | fail =>
        by_cases hidle : STREAM_MAX_IDLE ≤ s.idle + 1
        · have hstep : stepIter shuf enum gevent s it = ([Event.done "max_idle"], none) := by
            simp [stepIter, hpoll, hdur, hidle]
          rw [runFrom_cons_none shuf enum gevent s it rest _ hstep]
          rw [dataEventsWithId_done]
          exact ⟨by omega, fun _ => rfl⟩
        · have hstep : stepIter shuf enum gevent s it =
              (hbEvs it ++ sleepEvs gevent, some (St.mk s.seen (s.idle + 1))) := by
            simp [stepIter, hpoll, hdur, hidle]
          rw [runFrom_cons_some shuf enum gevent s _ it rest _ hstep]
          rw [dataEventsWithId_append, dataEventsWithId_append,
            dataEventsWithId_hbEvs, dataEventsWithId_sleepEvs]
          simpa using ih (St.mk s.seen (s.idle + 1)) U hnd hsU htUr hcard cid
      | err m =>
        by_cases hidle : STREAM_MAX_IDLE ≤ s.idle + 1
        · have hstep : stepIter shuf enum gevent s it =
              ([Event.errEvent m] ++ hbEvs it ++ [Event.done "max_idle"], none) := by
            simp [stepIter, hpoll, hdur, hidle]
          rw [runFrom_cons_none shuf enum gevent s it rest _ hstep]
          rw [dataEventsWithId_append, dataEventsWithId_append,
            dataEventsWithId_errEvent, dataEventsWithId_hbEvs, dataEventsWithId_done]
          exact ⟨by omega, fun _ => rfl⟩
        · have hstep : stepIter shuf enum gevent s it =
              ([Event.errEvent m] ++ hbEvs it ++ sleepEvs gevent,
                some (St.mk s.seen (s.idle + 1))) := by
            simp [stepIter, hpoll, hdur, hidle]
          rw [runFrom_cons_some shuf enum gevent s _ it rest _ hstep]
          rw [dataEventsWithId_append, dataEventsWithId_append, dataEventsWithId_append,
            dataEventsWithId_errEvent, dataEventsWithId_hbEvs, dataEventsWithId_sleepEvs]
          simpa using ih (St.mk s.seen (s.idle + 1)) U hnd hsU htUr hcard cid
      | ok cs =>
        have hseq := processCards_seen_eq shuf cs s.seen
        have hraw : rawIds cs ⊆ U := by
          intro x hx
          apply htU
          rw [traceIds_cons, hpoll]
          exact List.mem_append_left _ hx
        have hnd2 : (processCards shuf s.seen cs).2.Nodup := by
          rw [hseq, List.nodup_append]
          refine ⟨hnd, processCards_ids_nodup shuf cs s.seen, ?_⟩
          intro a ha hamem
          rcases List.mem_map.mp hamem with ⟨c, hc, hcid⟩
          exact processCards_fresh shuf cs s.seen c hc (hcid ▸ ha)
        have hsub2 : (processCards shuf s.seen cs).2 ⊆ U := by
          rw [hseq]
          intro x hx
          rcases List.mem_append.mp hx with hx | hx
          · exact hsU hx
          · rcases List.mem_map.mp hx with ⟨c, hc, hcid⟩
            exact hraw (hcid ▸ processCards_ids_sub shuf cs s.seen c hc)
        have hlen : (processCards shuf s.seen cs).2.length ≤ 1000 :=
          le_trans (nodup_subset_length_le _ U hnd2 hsub2) hcard
        have htrim : trimIf enum (processCards shuf s.seen cs).2 =
            (processCards shuf s.seen cs).2 := by
          unfold trimIf
          rw [if_neg (by omega)]
        by_cases hpc1 : (processCards shuf s.seen cs).1 ≠ []
        · have hstep : stepIter shuf enum gevent s it =
              ([Event.data (processCards shuf s.seen cs).1] ++ sleepEvs gevent,
                some (St.mk (processCards shuf s.seen cs).2 0)) := by
            simp only [stepIter, if_neg hdur, hpoll]
            rw [if_pos hpc1, htrim]
          rw [runFrom_cons_some shuf enum gevent s _ it rest _ hstep]
          rw [dataEventsWithId_append, dataEventsWithId_append,
            dataEventsWithId_data, dataEventsWithId_sleepEvs]
          rcases ih (St.mk (processCards shuf s.seen cs).2 0) U hnd2 hsub2 htUr hcard cid
            with ⟨ihle, ihzero⟩
          by_cases hany : ((processCards shuf s.seen cs).1).any
              (fun c => decide (c.card_id = cid)) = true
          · have hmem : cid ∈ (processCards shuf s.seen cs).2 := by
              rw [hseq]
              apply List.mem_append_right
              rcases List.any_eq_true.mp hany with ⟨c, hc, hcid⟩
              have := of_decide_eq_true hcid
              subst this
              exact List.mem_map.mpr ⟨c, hc, rfl⟩
            have hz := ihzero hmem
            rw [hany, if_pos rfl, hz]
            constructor
            · omega
            · intro hseen
              rcases List.any_eq_true.mp hany with ⟨c, hc, hcid⟩
              have := of_decide_eq_true hcid
              subst this
              exact absurd hseen (processCards_fresh shuf cs s.seen c hc)
          · rw [Bool.not_eq_true] at hany
            rw [hany]
            simp only [Bool.false_eq_true, if_false, Nat.zero_add, Nat.add_zero]
            constructor
            · omega
            · intro hseen
              apply ihzero
              rw [hseq]
              exact List.mem_append_left _ hseen
        · rw [not_not] at hpc1
          have hseen2 : (processCards shuf s.seen cs).2 = s.seen := by
            rw [hseq, hpc1]
            simp
          by_cases hidle : STREAM_MAX_IDLE ≤ s.idle + 1
          · have hstep : stepIter shuf enum gevent s it =
                (hbEvs it ++ [Event.done "max_idle"], none) := by
              simp only [stepIter, if_neg hdur, hpoll]
              rw [if_neg (by rw [hpc1]; simp), if_pos hidle]
            rw [runFrom_cons_none shuf enum gevent s it rest _ hstep]
            rw [dataEventsWithId_append, dataEventsWithId_hbEvs, dataEventsWithId_done]
            exact ⟨by omega, fun _ => rfl⟩
          · have hstep : stepIter shuf enum gevent s it =
                (hbEvs it ++ sleepEvs gevent, some (St.mk s.seen (s.idle + 1))) := by
              simp only [stepIter, if_neg hdur, hpoll]
              rw [if_neg (by rw [hpc1]; simp), if_neg hidle, htrim, hseen2]
            rw [runFrom_cons_some shuf enum gevent s _ it rest _ hstep]
            rw [dataEventsWithId_append, dataEventsWithId_append,
              dataEventsWithId_hbEvs, dataEventsWithId_sleepEvs]
            simpa using ih (St.mk s.seen (s.idle + 1)) U hnd hsU htUr hcard cid

/-- Claim C1 (amended): in every stream session during which at most
1000 distinct card ids are ever fetched — so the bounded seen-set never
evicts — every card id is contained in at most one `data` event,
whatever the option shuffles, the set enumeration order, the worker
model, and the poll outcomes are.  (Beyond 1000 distinct ids eviction
can re-emit an id; see the counterexample.) -/
theorem C1_dedup_amended (shuf : List String → List String)
    (enum : List PyVal → List PyVal) (gevent : Bool) (trace : List Iter) (cid : PyVal)
    (hc : (traceIds trace).toFinset.card ≤ 1000) :
    dataEventsWithId cid (runStream shuf enum gevent trace) ≤ 1 :=
  (dedup_run shuf enum gevent trace initSt (traceIds trace)
    List.nodup_nil (List.nil_subset _) (fun _ hx => hx) hc cid).1

/-- Witness for C1 (amended): a two-poll session re-fetching the same
card delivers its id at most once. -/
theorem C1_dedup_amended_witness :
    dataEventsWithId (PyVal.str "c1")
      (runStream id id true
        [Iter.mk 0 (Poll.ok [sampleRaw]) false, Iter.mk 2 (Poll.ok [sampleRaw]) false]) ≤ 1 :=
  C1_dedup_amended id id true
    [Iter.mk 0 (Poll.ok [sampleRaw]) false, Iter.mk 2 (Poll.ok [sampleRaw]) false]
    (PyVal.str "c1") (by decide)

/-- Unfolding `processCards` over a record that fails to normalize. -/
theorem processCards_cons_none (shuf : List String → List String)
    (seen : List PyVal) (cd : RawCard) (rest : List RawCard)
    (h : normalize_card shuf cd = none) :
    processCards shuf seen (cd :: rest) = processCards shuf seen rest := by
  simp only [processCards]
  split
  · rfl
  · rename_i nc heq
    rw [h] at heq
    cases heq

/-- Unfolding `processCards` over an already-seen record. -/
theorem processCards_cons_mem (shuf : List String → List String)
    (seen : List PyVal) (cd : RawCard) (rest : List RawCard) (nc : Card)
    (h : normalize_card shuf cd = some nc) (hm : nc.card_id ∈ seen) :
    processCards shuf seen (cd :: rest) = processCards shuf seen rest := by
  simp only [processCards]
  split
  · rfl
  · rename_i nc' heq
    rw [h] at heq
    cases heq
    rw [if_pos hm]

/-- Unfolding `processCards` over a fresh record. -/
theorem processCards_cons_new (shuf : List String → List String)
    (seen : List PyVal) (cd : RawCard) (rest : List RawCard) (nc : Card)
    (h : normalize_card shuf cd = some nc) (hm : nc.card_id ∉ seen) :
    processCards shuf seen (cd :: rest) =
      (stripRaw nc :: (processCards shuf (seen ++ [nc.card_id]) rest).1,
       (processCards shuf (seen ++ [nc.card_id]) rest).2) := by
  simp only [processCards]
  split
  · rename_i heq
    rw [h] at heq
    cases heq
  · rename_i nc' heq
    rw [h] at heq
    cases heq
    rw [if_neg hm]

/-- A numeric card id. -/
def natId (n : Nat) : PyVal := PyVal.int (Int.ofNat n)

/-- A minimal raw card carrying only a numeric id. -/
def idRaw (n : Nat) : RawCard :=
  RawCard.mk (natId n) PyVal.none PyVal.none PyVal.none [] PyVal.none PyVal.none
    PyVal.none PyVal.none PyVal.none PyVal.none

/-- The (raw-stripped) normalized form of `idRaw n`. -/
def idCard (n : Nat) : Card :=
  Card.mk (natId n) PyVal.none PyVal.none PyVal.none "" (PyVal.str "") [] none

/-- `natId` is injective. -/
theorem natId_inj (m n : Nat) (h : natId m = natId n) : m = n := by
  unfold natId at h
  cases h
  rfl

/-- Positive numeric ids are truthy. -/
theorem natId_truthy (n : Nat) (h : 0 < n) : pyTruthy (natId n) = true := by
  unfold natId pyTruthy
  simp only [decide_eq_true_eq]
  intro habs
  rw [Int.ofNat_eq_natCast, Int.ofNat_eq_zero] at habs
  omega

/-- Normalizing an id-only card (positive id). -/
theorem normalize_idRaw (shuf : List String → List String) (n : Nat) (h : 0 < n) :
    normalize_card shuf (idRaw n) = some (Card.mk (natId n) PyVal.none PyVal.none
      PyVal.none "" (PyVal.str "") [] (some (idRaw n))) := by
  have ht := natId_truthy n h
  have hor : pyOr (natId n) PyVal.none = natId n := by
    unfold pyOr
    rw [if_pos ht]
  have hopt : build_options shuf PyVal.none [] PyVal.none = [] := by
    rw [build_options_nil_eq]
    rfl
  unfold normalize_card idRaw
  simp only [hor, ht, if_pos]
  rw [hopt]
  rfl

/-- Processing a batch of fresh id-only cards emits all of them and
appends their ids to `seen` in order. -/
theorem processCards_fresh_batch (shuf : List String → List String) :
    ∀ (l : List Nat) (seen : List PyVal),
      (∀ n ∈ l, 0 < n) → (∀ n ∈ l, natId n ∉ seen) → l.Nodup →
      processCards shuf seen (l.map idRaw) = (l.map idCard, seen ++ l.map natId) := by
  intro l
  induction l with
  | nil => intro seen _ _ _; simp [processCards]
  | cons n rest ih =>
    intro seen hpos hnot hnd
    have hn : 0 < n := hpos n (List.mem_cons_self n rest)
    rw [List.map_cons]
    rw [processCards_cons_new shuf seen (idRaw n) (rest.map idRaw) _
      (normalize_idRaw shuf n hn) (hnot n (List.mem_cons_self n rest))]
    have hrec := ih (seen ++ [natId n])
      (fun m hm => hpos m (List.mem_cons_of_mem n hm))
      (fun m hm habs => by
        rcases List.mem_append.mp habs with hs | hs
        · exact hnot m (List.mem_cons_of_mem n hm) hs
        · have heq := List.mem_singleton.mp hs
          have := natId_inj m n heq
          subst this
          exact (List.nodup_cons.mp hnd).1 hm)
      (List.nodup_cons.mp hnd).2
    rw [hrec]
    simp [stripRaw, idCard]

/-- Processing a batch of already-seen id-only cards emits nothing. -/
theorem processCards_seen_batch (shuf : List String → List String) :
    ∀ (l : List Nat) (seen : List PyVal),
      (∀ n ∈ l, 0 < n) → (∀ n ∈ l, natId n ∈ seen) →
      processCards shuf seen (l.map idRaw) = ([], seen) := by
  intro l
  induction l with
  | nil => intro seen _ _; simp [processCards]
  | cons n rest ih =>
    intro seen hpos hin
    have hn : 0 < n := hpos n (List.mem_cons_self n rest)
    rw [List.map_cons]
    rw [processCards_cons_mem shuf seen (idRaw n) (rest.map idRaw) _
      (normalize_idRaw shuf n hn) (hin n (List.mem_cons_self n rest))]
    exact ih seen (fun m hm => hpos m (List.mem_cons_of_mem n hm))
      (fun m hm => hin m (List.mem_cons_of_mem n hm))

/-- 1001 distinct ids: one more than the seen-set bound. -/
def bigList : List Nat := List.range' 1 1001

/-- The corresponding fetch result. -/
def bigCards : List RawCard := bigList.map idRaw

/-- The corresponding ids in insertion order. -/
def bigIds : List PyVal := bigList.map natId

/-- The ids surviving an insertion-ordered trim. -/
def tailIds : List PyVal := (List.range' 2 1000).map natId

/-- First poll iteration fetching the 1001 cards. -/
def evictIter : Iter := Iter.mk 0 (Poll.ok bigCards) false

/-- Second poll iteration re-fetching the same 1001 cards. -/
def evictIter2 : Iter := Iter.mk 2 (Poll.ok bigCards) false

/-- All the ids are positive. -/
theorem bigList_pos : ∀ n ∈ bigList, 0 < n := by
  intro n hn
  unfold bigList at hn
  rw [List.mem_range'_1] at hn
  omega

/-- The 1001 ids are distinct. -/
theorem bigList_nodup : bigList.Nodup := List.nodup_range' 1 1001

/-- Peeling the first id off the range. -/
theorem bigList_decomp : bigList = 1 :: List.range' 2 1000 := by
  unfold bigList
  rw [show (1001 : Nat) = 1000 + 1 from rfl, List.range'_succ]

/-- There are 1001 fetched ids. -/
theorem bigIds_len : bigIds.length = 1001 := by
  unfold bigIds bigList
  rw [List.length_map, List.length_range']

/-- The first iteration emits all 1001 cards in one `data` event and
stores the trimmed id set. -/
theorem evict_step1 (enum : List PyVal → List PyVal) :
    stepIter id enum true initSt evictIter =
      ([Event.data (bigList.map idCard)], some (St.mk (trimSeen enum bigIds) 0)) := by
  have hpc : processCards id [] bigCards = (bigList.map idCard, bigIds) := by
    have h := processCards_fresh_batch id bigList []
      bigList_pos (fun n _ habs => (List.not_mem_nil _) habs) bigList_nodup
    unfold bigCards bigIds
    rw [h]
    simp
  have hne : (processCards id ([] : List PyVal) bigCards).1 ≠ [] := by
    rw [hpc]
    rw [bigList_decomp, List.map_cons]
    simp
  have htrim : trimIf enum bigIds = trimSeen enum bigIds := by
    unfold trimIf
    rw [if_pos (by rw [bigIds_len]; omega)]
  simp only [stepIter, evictIter, initSt]
  rw [if_neg (by simp [MAX_STREAM_DURATION])]
  rw [hpc] at hne ⊢
  rw [if_pos hne, htrim]
  rfl

/-- With insertion-ordered enumeration the trim drops exactly the first
(oldest) id. -/
theorem trim_id_drops_first : trimSeen id bigIds = tailIds := by
  unfold trimSeen
  simp only [id_eq]
  rw [bigIds_len]
  norm_num
  unfold bigIds tailIds
  rw [bigList_decomp, List.map_cons]
  simp

/-- With reversed enumeration the trim drops the newest id and keeps the
oldest 1000. -/
theorem trim_reverse_drops_last :
    trimSeen List.reverse bigIds = ((List.range' 1 1000).map natId).reverse := by
  unfold trimSeen
  rw [List.length_reverse, bigIds_len]
  norm_num
  unfold bigIds bigList
  rw [show (1001 : Nat) = 1000 + 1 from rfl, List.range'_1_concat, List.map_append]
  simp

/-- The evicted id 1 is no longer in the trimmed seen set. -/
theorem natId_one_not_in_tailIds : natId 1 ∉ tailIds := by
  intro habs
  unfold tailIds at habs
  rcases List.mem_map.mp habs with ⟨m, hm, heq⟩
  have := natId_inj m 1 heq
  subst this
  rw [List.mem_range'_1] at hm
  omega

/-- Re-fetching the same 1001 cards after the trim re-emits the evicted
card: the second iteration yields a `data` event containing id 1
again. -/
theorem evict_step2 :
    stepIter id id true (St.mk tailIds 0) evictIter2 =
      ([Event.data [idCard 1]],
        some (St.mk (trimIf id (tailIds ++ [natId 1])) 0)) := by
  have hpc : processCards id tailIds bigCards = ([idCard 1], tailIds ++ [natId 1]) := by
    unfold bigCards
    rw [bigList_decomp, List.map_cons]
    rw [processCards_cons_new id tailIds (idRaw 1) (List.map idRaw (List.range' 2 1000))
      (Card.mk (natId 1) PyVal.none PyVal.none PyVal.none "" (PyVal.str "") []
        (some (idRaw 1)))
      (normalize_idRaw id 1 (by omega)) natId_one_not_in_tailIds]
    rw [processCards_seen_batch id (List.range' 2 1000) (tailIds ++ [natId 1])
      (fun m hm => by rw [List.mem_range'_1] at hm; omega)
      (fun m hm => List.mem_append_left _ (List.mem_map.mpr ⟨m, hm, rfl⟩))]
    simp [stripRaw, idCard]
  have hne : (processCards id tailIds bigCards).1 ≠ [] := by
    rw [hpc]
    simp
  simp only [stepIter, evictIter2]
  rw [if_neg (by simp [MAX_STREAM_DURATION])]
  rw [hpc] at hne ⊢
  rw [if_pos hne]
  rfl

/-- Claim C1 (counterexample): a session fetching the same 1001-card
deck twice delivers the evicted card id 1 in two distinct `data`
events — the claimed at-most-once delivery fails once the 1000-id bound
is exceeded.  (`id` instantiates both the shuffle and the
set-enumeration order with legitimate permutations.) -/
theorem C1_counterexample :
    dataEventsWithId (natId 1) (runStream id id true [evictIter, evictIter2]) = 2 := by
  have hs1 : stepIter id id true initSt evictIter =
      ([Event.data (bigList.map idCard)], some (St.mk tailIds 0)) := by
    rw [evict_step1 id, trim_id_drops_first]
  unfold runStream
  rw [runFrom_cons_some id id true initSt (St.mk tailIds 0) evictIter [evictIter2] _ hs1]
  rw [runFrom_single, evict_step2]
  rw [dataEventsWithId_append]
  rw [dataEventsWithId_data, dataEventsWithId_data]
  rw [bigList_decomp, List.map_cons, List.any_cons]
  have h1 : decide ((idCard 1).card_id = natId 1) = true := by decide
  rw [h1]
  simp only [Bool.true_or, if_true]
  rw [show ([idCard 1].any fun c => decide (c.card_id = natId 1)) = true from by decide]
  simp

/-- Under any permutation-valid enumeration order the trim leaves at
most 1000 ids. -/
theorem trimIf_length_le (enum : List PyVal → List PyVal)
    (hEnum : ∀ l : List PyVal, (enum l).Perm l) (l : List PyVal) :
    (trimIf enum l).length ≤ 1000 := by
  unfold trimIf
  split
  · rename_i hgt
    unfold trimSeen
    rw [List.length_drop]
    have := (hEnum l).length_eq
    omega
  · rename_i hle
    omega

/-- One live step keeps the seen set within the 1000-id bound. -/
theorem stepIter_seen_le (shuf : List String → List String)
    (enum : List PyVal → List PyVal) (gevent : Bool) (s : St) (it : Iter)
    (evs : List Event) (s' : St)
    (hEnum : ∀ l : List PyVal, (enum l).Perm l)
    (h : stepIter shuf enum gevent s it = (evs, some s'))
    (hs : s.seen.length ≤ 1000) : s'.seen.length ≤ 1000 := by
  unfold stepIter at h
  split at h
  · simp at h
  · split at h
    · split at h
      · simp at h
      · cases h
        exact hs
    · split at h
      · cases h
        exact trimIf_length_le enum hEnum _
      · split at h
        · simp at h
        · cases h
          exact trimIf_length_le enum hEnum _
    · split at h
      · simp at h
      · cases h
        exact hs

/-- The seen-set bound is a run invariant. -/
theorem seen_bound_run (shuf : List String → List String)
    (enum : List PyVal → List PyVal) (gevent : Bool)
    (hEnum : ∀ l : List PyVal, (enum l).Perm l) :
    ∀ (its : List Iter) (s0 : St), s0.seen.length ≤ 1000 →
      ∀ s : St, runStateFrom shuf enum gevent s0 its = some s → s.seen.length ≤ 1000 := by
  intro its
  induction its with
  | nil =>
    intro s0 h0 s hs
    simp only [runStateFrom, Option.some.injEq] at hs
    subst hs
    exact h0
  | cons it rest ih =>
    intro s0 h0 s hs
    cases hstep : stepIter shuf enum gevent s0 it with
    | mk evs os =>
      cases os with
      | none =>
        rw [runStateFrom_cons_none shuf enum gevent s0 it rest evs hstep] at hs
        cases hs
      | some s1 =>
        rw [runStateFrom_cons_some shuf enum gevent s0 s1 it rest evs hstep] at hs
        exact ih s1 (stepIter_seen_le shuf enum gevent s0 it evs s1 hEnum hstep h0) s hs

/-- Claim C5 (amended): after every poll iteration of every session the
seen set holds at most 1000 ids, for every permutation-valid set
enumeration order; which 1000 ids survive a trim depends on that
arbitrary enumeration order and need not be the most recently added
(see the counterexample). -/
theorem C5_seen_bound_amended (shuf : List String → List String)
    (enum : List PyVal → List PyVal) (gevent : Bool) (trace : List Iter) (s : St)
    (hEnum : ∀ l : List PyVal, (enum l).Perm l)
    (hs : runStateFrom shuf enum gevent initSt trace = some s) :
    s.seen.length ≤ 1000 :=
  seen_bound_run shuf enum gevent hEnum trace initSt (by simp [initSt]) s hs

/-- Witness for C5 (amended): a one-poll session holds one id, within
the bound. -/
theorem C5_seen_bound_amended_witness :
    (St.mk [PyVal.str "c1"] 0).seen.length ≤ 1000 :=
  C5_seen_bound_amended id id true [Iter.mk 0 (Poll.ok [sampleRaw]) false]
    (St.mk [PyVal.str "c1"] 0) (fun l => List.Perm.refl l) (by decide)

/-- Claim C5 (counterexample): with the (legitimate, permutation-valid)
reversed enumeration order of `list(seen)`, the trim after fetching 1001
cards retains the oldest id 1 and evicts the most recently added id
1001 — the retained ids are not the most recently added 1000. -/
theorem C5_counterexample :
    runStateFrom id List.reverse true initSt [evictIter] =
      some (St.mk (((List.range' 1 1000).map natId).reverse) 0) ∧
    natId 1001 ∉ ((List.range' 1 1000).map natId).reverse ∧
    natId 1 ∈ ((List.range' 1 1000).map natId).reverse ∧
    (∀ l : List PyVal, (List.reverse l).Perm l) := by
  refine ⟨?_, ?_, ?_, fun l => List.reverse_perm l⟩
  · rw [runStateFrom_cons_some id List.reverse true initSt
      (St.mk (trimSeen List.reverse bigIds) 0) evictIter [] _ (evict_step1 List.reverse)]
    simp only [runStateFrom, Option.some.injEq]
    rw [trim_reverse_drops_last]
  · intro habs
    rw [List.mem_reverse] at habs
    rcases List.mem_map.mp habs with ⟨m, hm, heq⟩
    have := natId_inj m 1001 heq
    subst this
    rw [List.mem_range'_1] at hm
    omega
  · rw [List.mem_reverse]
    exact List.mem_map.mpr ⟨1, List.mem_range'_1.mpr ⟨Nat.le_refl 1, by omega⟩, rfl⟩
